import Mathlib

/-!
A verification development for the research-companion repository
(`step0_keyword_generator.py` and `step1_analysis.py`).

Python code is shallowly embedded: pure fragments become Lean functions over
`String`, `List` and `Nat`; the checkpoint file becomes an explicit state
type with an operation list; the regular-expression engine used by the
section extractor is abstracted as match-list / match-count parameters,
while all surrounding selection logic is embedded from the source.
-/

/-! ## Generic Python-style string helpers -/

/-- Python substring containment `a in b` for strings. -/
def pyIn (a b : String) : Bool := decide (a.data <:+: b.data)

/-- Python slicing `s[:25000]` applied by the extractor to over-long
candidates: `if len(s) > 25000: s = s[:25000]`. -/
def truncate25k (s : String) : String :=
  if 25000 < s.length then String.mk (s.data.take 25000) else s

/-- Python whitespace test used by `str.strip()` (ASCII whitespace). -/
def isPySpace (c : Char) : Bool :=
  c == ' ' || c == '\t' || c == '\n' || c == '\r' ||
  c == Char.ofNat 11 || c == Char.ofNat 12

/-- Python `str.strip()`: drop leading and trailing whitespace. -/
def pyStrip (s : String) : String :=
  String.mk (((s.data.dropWhile isPySpace).reverse.dropWhile isPySpace).reverse)

/-! ## Keyword consolidation (`consolidate_similar_keywords`)

The Python function receives a `Counter` (a mapping keyword -> count, i.e.
an association list with pairwise distinct keys, in first-seen order) and
processes keywords in descending count order (`sorted(..., key=lambda x:
x[1], reverse=True)`, a stable sort).  We embed the mapping as a
`List (String × Nat)` and the stable descending sort as `List.insertionSort`
with the relation "count at least as large", which places each element
before the first strictly smaller one, exactly matching Python stability. -/

/-- Stable sort by count, descending (`sorted(items, key=..., reverse=True)`). -/
def sortByCountDesc (l : List (String × Nat)) : List (String × Nat) :=
  l.insertionSort (fun a b => b.2 ≤ a.2)

/-- The inner scan of `consolidate_similar_keywords`: all still-unprocessed
keywords other than `k` itself that are in a substring relation with `k`.
The scan runs over the whole sorted list, as in the source. -/
def similarOthers (k : String) (full : List (String × Nat))
    (processed : List String) : List (String × Nat) :=
  full.filter (fun o =>
    !(processed.contains o.1) && o.1 != k && (pyIn k o.1 || pyIn o.1 k))

/-- One consolidation cluster: the initiating keyword and the other members
captured by its substring scan. -/
abbrev Cluster := (String × Nat) × List (String × Nat)

/-- All members of a cluster, initiating keyword first (Python builds
`similar_group = [keyword] + others`). -/
def clusterMembers (g : Cluster) : List (String × Nat) := g.1 :: g.2

/-- The representative of a cluster: `max(similar_group, key=len)`, which in
Python returns the first member of maximal length. -/
def clusterRep (g : Cluster) : String :=
  g.2.foldl (fun acc o => if acc.length < o.1.length then o.1 else acc) g.1.1

/-- The aggregate count of a cluster:
`sum(keyword_counts[kw] for kw in similar_group)`; the counts carried in
the pairs are exactly the `keyword_counts` lookups because the keys of a
`Counter` are pairwise distinct. -/
def clusterTotal (g : Cluster) : Nat := (clusterMembers g).map Prod.snd |>.sum

/-- The outer loop of `consolidate_similar_keywords`, returning the clusters
in creation order.  `rest` is the remaining part of the sorted list, `full`
the whole sorted list (rescanned by the inner loop), `processed` the set of
already clustered keywords. -/
def consolidateClusters :
    List (String × Nat) → List (String × Nat) → List String → List Cluster
  | [], _, _ => []
  | (k, c) :: rest, full, processed =>
    if processed.contains k then consolidateClusters rest full processed
    else
      let others := similarOthers k full processed
      ((k, c), others) ::
        consolidateClusters rest full (k :: others.map Prod.fst ++ processed)

/-- `consolidate_similar_keywords`: clusters in creation order, each mapped
to its representative and aggregate count (the insertion order of the
Python result dict). -/
def consolidate_similar_keywords (keyword_counts : List (String × Nat)) :
    List (String × Nat) :=
  (consolidateClusters (sortByCountDesc keyword_counts)
      (sortByCountDesc keyword_counts) []).map
    (fun g => (clusterRep g, clusterTotal g))

/-- The clusters built for a given input mapping. -/
def clustersOf (keyword_counts : List (String × Nat)) : List Cluster :=
  consolidateClusters (sortByCountDesc keyword_counts)
    (sortByCountDesc keyword_counts) []

/-! ## Final vocabulary (`main`) -/

/-- `TOP_N_KEYWORDS` from the configuration block. -/
def TOP_N_KEYWORDS : Nat := 100

/-- `sorted(consolidated_counts.items(), key=lambda x: x[1], reverse=True)[:TOP_N_KEYWORDS]`
applied by `main` to the consolidated mapping (entries in creation order). -/
def top_keywords (consolidated_counts : List (String × Nat)) :
    List (String × Nat) :=
  (sortByCountDesc consolidated_counts).take TOP_N_KEYWORDS

/-! ## Filename resolver (`get_unique_filename`, step1_analysis.py)

The target namespace (the set of filenames already present in
`OBSIDIAN_FOLDER`, tested by `os.path.exists(os.path.join(folder, name))`)
is embedded as a finite list `taken` of filenames. -/

/-- Little-endian decimal digits with structural fuel (`fuel ≥ n` always
suffices); proved below to agree with `Nat.digits 10`. -/
def decDigits : Nat → Nat → List Nat
  | _, 0 => []
  | 0, _ + 1 => []
  | fuel + 1, n + 1 => (n + 1) % 10 :: decDigits fuel ((n + 1) / 10)

/-- Decimal rendering of a natural number, embedding Python `str(counter)`
(most significant digit first). -/
def natToStr (n : Nat) : String :=
  if n = 0 then "0"
  else String.mk (((decDigits n n).map Nat.digitChar).reverse)

/-- The base filename `f"{base_author} ({base_year}).md"`. -/
def md_name (author year : String) : String :=
  author ++ " (" ++ year ++ ").md"

/-- The year string tried in round `c` of the numeric-suffix loop. -/
def counterYear (year : String) (c : Nat) : String :=
  year ++ "-" ++ natToStr c

/-- The filename tried in round `c` of the numeric-suffix loop. -/
def counterName (author year : String) (c : Nat) : String :=
  md_name author (counterYear year c)

/-- `DUPLICATE_MODE`: `"replace"` or `"suffix"`. -/
inductive DupMode | replace | suffix
deriving DecidableEq

/-- The 26 letters tried by the suffix loop (`for suffix in 'abef...'`). -/
def LETTERS : List Char := "abcdefghijklmnopqrstuvwxyz".data

/-- The letter-suffix loop: first `year+letter` whose filename is free. -/
def letterLoop (author year : String) (taken : List String) :
    List Char → Option (String × String × Bool)
  | [] => none
  | ch :: rest =>
    if taken.contains (md_name author (year ++ String.mk [ch])) then
      letterLoop author year taken rest
    else some (md_name author (year ++ String.mk [ch]), year ++ String.mk [ch], false)

/-- The unbounded `while True` numeric-suffix loop, embedded with explicit
fuel (`none` on fuel exhaustion); `get_unique_filename` supplies fuel
`taken.length + 1`, which is proved sufficient below. -/
def counterLoop (author year : String) (taken : List String) :
    Nat → Nat → Option (String × String × Bool)
  | 0, _ => none
  | fuel + 1, c =>
    if taken.contains (counterName author year c) then
      counterLoop author year taken fuel (c + 1)
    else some (counterName author year c, counterYear year c, false)

/-- `get_unique_filename(base_author, base_year, folder, mode)`: returns
`(filename, final_year, is_replacing)`. -/
def get_unique_filename (author year : String) (taken : List String) :
    DupMode → Option (String × String × Bool)
  | .replace => some (md_name author year, year, taken.contains (md_name author year))
  | .suffix =>
    if taken.contains (md_name author year) then
      match letterLoop author year taken LETTERS with
      | some r => some r
      | none => counterLoop author year taken (taken.length + 1) 1
    else some (md_name author year, year, false)

/-! ## Section extractor (`download_pdf_and_extract_method`)

The function first assembles `full_text` from the PDF pages, then

1. runs four regular-expression patterns (two explicit-header patterns,
   two combined data-and-method patterns) and keeps the longest candidate
   of length at least 200, truncated at 25000 characters (phase 1/2);
2. if none qualified, splits the text into `'\n\n'`-separated blocks and
   scans for runs of consecutive blocks each containing a methodology
   keyword (phase 3).

The regular-expression engine is abstracted: phase 1/2 receives the list
of `match.group(0)` texts per pattern (`ms`), and the per-string
methodology-keyword count
`sum(1 for kw in method_keywords if re.search(rf'\b{kw}\b', s, re.IGNORECASE))`
is abstracted as a parameter `cnt : String → Nat`.  Everything around
those two oracles is embedded from the source. -/

/-- The phase-1/2 fold: iterate over all candidates in pattern order, skip
ones shorter than 200, truncate at 25000, keep the strictly longest. -/
def selectBestAux : List String → Option String → Nat → Option String
  | [], best, _ => best
  | m :: rest, best, bestLen =>
    if m.length < 200 then selectBestAux rest best bestLen
    else
      let t := truncate25k m
      if bestLen < t.length then selectBestAux rest (some t) t.length
      else selectBestAux rest best bestLen

/-- Phase 1/2 of the extractor over the flattened per-pattern match lists
(`best_match = None; best_length = 0; for pattern ...: for match ...`). -/
def phase12 (ms : List (List String)) : Option String :=
  selectBestAux ms.flatten none 0

/-- Python `full_text.split('\n\n')` specialised to the two-newline
separator, over the character list (non-overlapping leftmost matches). -/
def splitBlocksAux : List Char → List Char → List (List Char)
  | [], acc => [acc.reverse]
  | '\n' :: '\n' :: rest, acc => acc.reverse :: splitBlocksAux rest []
  | c :: rest, acc => splitBlocksAux rest (c :: acc)

/-- `full_text.split('\n\n')`. -/
def pySplitBlocks (s : String) : List String :=
  (splitBlocksAux s.data []).map String.mk

/-- `'\n\n'.join(current_section)`. -/
def joinBlocks (blocks : List String) : String :=
  String.intercalate "\n\n" blocks

/-- The phase-3 scan over the blocks: accumulate consecutive blocks with a
positive keyword count into `cur`; when a keyword-free block ends a run,
keep the run if its keyword count strictly exceeds the maximum so far and
its joined length exceeds 500.  Returns
`(max_method_mentions, method_rich_section)`. -/
def fallbackLoop (cnt : String → Nat) :
    List String → List String → Nat → String → Nat × String
  | [], _, maxC, best => (maxC, best)
  | p :: rest, cur, maxC, best =>
    if 0 < cnt p then fallbackLoop cnt rest (cur ++ [p]) maxC best
    else if cur.isEmpty then fallbackLoop cnt rest cur maxC best
    else
      let st := joinBlocks cur
      let c := cnt st
      if maxC < c ∧ 500 < st.length then fallbackLoop cnt rest [] c st
      else fallbackLoop cnt rest [] maxC best

/-- Phase 3 of the extractor: the keyword-density fallback.  Returns the
selected section (truncated at 25000) if it is nonempty and longer than
500 characters. -/
def fallbackResult (cnt : String → Nat) (full_text : String) : Option String :=
  let best := (fallbackLoop cnt (pySplitBlocks full_text) [] 0 "").2
  if best ≠ "" ∧ 500 < best.length then some (truncate25k best) else none

/-- `download_pdf_and_extract_method` after PDF text assembly: phase 1/2
result if any, otherwise the keyword-density fallback, otherwise `none`. -/
def download_pdf_and_extract_method (ms : List (List String))
    (cnt : String → Nat) (full_text : String) : Option String :=
  match phase12 ms with
  | some b => some b
  | none => fallbackResult cnt full_text

/-- The maximal runs of consecutive keyword-positive blocks that are
terminated by a later keyword-free block.  (A run that extends to the end
of the block list is not included: this mirrors the loop in the source,
which only evaluates `current_section` when a keyword-free block follows.) -/
def termRunsAux (cnt : String → Nat) :
    List String → List String → List (List String)
  | [], _ => []
  | p :: rest, cur =>
    if 0 < cnt p then termRunsAux cnt rest (cur ++ [p])
    else if cur.isEmpty then termRunsAux cnt rest cur
    else cur :: termRunsAux cnt rest []

/-- Terminated keyword runs of a block list. -/
def terminatedRuns (cnt : String → Nat) (blocks : List String) :
    List (List String) :=
  termRunsAux cnt blocks []

/-- All maximal runs of consecutive keyword-positive blocks, including a
final run extending to the end of the block list. -/
def allRunsAux (cnt : String → Nat) :
    List String → List String → List (List String)
  | [], cur => if cur.isEmpty then [] else [cur]
  | p :: rest, cur =>
    if 0 < cnt p then allRunsAux cnt rest (cur ++ [p])
    else if cur.isEmpty then allRunsAux cnt rest cur
    else cur :: allRunsAux cnt rest []

/-- All maximal keyword runs of a block list. -/
def allRuns (cnt : String → Nat) (blocks : List String) : List (List String) :=
  allRunsAux cnt blocks []

/-- The selection the phase-3 scan performs on a list of runs: first run
whose keyword count strictly exceeds the running maximum and whose joined
length exceeds 500. -/
def pickRun (cnt : String → Nat) (runs : List (List String)) : Nat × String :=
  runs.foldl
    (fun acc r =>
      if acc.1 < cnt (joinBlocks r) ∧ 500 < (joinBlocks r).length
      then (cnt (joinBlocks r), joinBlocks r) else acc)
    (0, "")

/-! ## Paper collection (`get_papers_for_year`)

The CrossRef response items are embedded as records; the JSON `title`
field is either a list of strings or a plain string (the source tests
`isinstance(title_list, list)`), and a missing field is the default `[]`. -/

/-- The JSON `title` field of a CrossRef item. -/
inductive JsonTitle where
  | list (l : List String)
  | str (s : String)
deriving DecidableEq

/-- Python truthiness of the title field (`if not title_list: continue`). -/
def titleTruthy : JsonTitle → Bool
  | .list l => !l.isEmpty
  | .str s => !(s == "")

/-- `title_list[0] if isinstance(title_list, list) else title_list`
(only evaluated on truthy fields; `headD` supplies a dummy for `[]`). -/
def titleValue : JsonTitle → String
  | .list l => l.headD ""
  | .str s => s

/-- One item of the CrossRef `message.items` array (the fields the loop
reads; `abstract` is `""` when the key is missing). -/
structure CrossRefItem where
  title : JsonTitle
  abstract : String
  doi : String
deriving DecidableEq

/-- One collected paper record. -/
structure Paper where
  title : String
  abstract : String
  doi : String
  year : Nat
deriving DecidableEq

/-- Split a character list at the first `'>'`: returns the characters
before it and the remainder after it. -/
def findGt : List Char → Option (List Char × List Char)
  | [] => none
  | '>' :: rest => some ([], rest)
  | c :: rest =>
    match findGt rest with
    | none => none
    | some (ins, aft) => some (c :: ins, aft)

/-- `re.sub(r'<[^>]+>', '', s)` over the character list: delete every
leftmost non-overlapping `<...>` span whose interior is a nonempty run of
non-`'>'` characters.  Structural fuel (initialised to the list length,
which always suffices since each deleted span is nonempty). -/
def stripTagsAux : Nat → List Char → List Char
  | 0, l => l
  | _, [] => []
  | fuel + 1, c :: rest =>
    if c = '<' then
      match findGt rest with
      | some (ins, aft) =>
        if ins.isEmpty then c :: stripTagsAux fuel rest
        else stripTagsAux fuel aft
      | none => c :: stripTagsAux fuel rest
    else c :: stripTagsAux fuel rest

/-- `re.sub(r'<[^>]+>', '', s)`. -/
def stripXmlTags (s : String) : String :=
  String.mk (stripTagsAux s.data.length s.data)

/-- The abstract after the conditional clean-up of the loop body:
`if abstract: abstract = re.sub(r'<[^>]+>', '', abstract).strip()`. -/
def processedAbstract (item : CrossRefItem) : String :=
  if item.abstract ≠ "" then pyStrip (stripXmlTags item.abstract)
  else item.abstract

/-- The filtering loop of `get_papers_for_year` over the CrossRef items:
skip items with a falsy title field; strip XML tags from a nonempty
abstract and trim it; keep the item iff the resulting abstract is truthy
and longer than 100 characters. -/
def get_papers_for_year (year : Nat) (items : List CrossRefItem) : List Paper :=
  items.filterMap (fun item =>
    if titleTruthy item.title then
      if processedAbstract item ≠ "" ∧ 100 < (processedAbstract item).length then
        some { title := titleValue item.title, abstract := processedAbstract item,
               doi := item.doi, year := year }
      else none
    else none)

/-! ## Checkpointed batch driver (`process_year` / `save_progress`)

The checkpoint file is embedded as an explicit content state.  Writing is
decomposed into the two observable steps of
`open(PROGRESS_FILE, 'w')` followed by `json.dump(progress, f, ...)`:
opening with mode `'w'` truncates the file in place (content becomes
invalid JSON) and only the completed dump makes it a valid serialisation
of the new state.  An interruption or write failure after `k` file
operations leaves the file at `runOps f (ops.take k)`.

The external collaborators of `process_year` (CrossRef, Semantic Scholar,
the PDF fetch and the keyword oracle) touch no checkpoint state; a
paper's combined derived keywords are abstracted as `kws paper`. -/

/-- The persisted progress record
`{'completed_years': [...], 'all_keywords': [...]}`. -/
structure Progress where
  completed_years : List Nat
  all_keywords : List String
deriving DecidableEq

/-- Observable checkpoint-file content. -/
inductive FileContent where
  | absent
  | invalid
  | valid (p : Progress)
deriving DecidableEq

/-- One observable file operation of `save_progress`. -/
inductive FileOp where
  | truncate
  | writeAll (p : Progress)
deriving DecidableEq

/-- Effect of one file operation on the checkpoint file. -/
def applyOp : FileContent → FileOp → FileContent
  | _, .truncate => .invalid
  | _, .writeAll p => .valid p

/-- Run a list of file operations against the checkpoint file. -/
def runOps (f : FileContent) (ops : List FileOp) : FileContent :=
  ops.foldl applyOp f

/-- The file operations of `save_progress(progress)`:
`open(PROGRESS_FILE, 'w')` truncates, then `json.dump` writes the state. -/
def save_progress_ops (p : Progress) : List FileOp :=
  [.truncate, .writeAll p]

/-- `process_year(year, progress)`: skip an already-completed year and a
year with no papers; otherwise run the document loop (which performs no
checkpoint-file operation), extend the accumulated keywords, append the
year to the completed list, and call `save_progress`.  Returns the new
in-memory progress and the checkpoint-file operations issued. -/
def process_year (year : Nat) (papers : List Paper)
    (kws : Paper → List String) (progress : Progress) :
    Progress × List FileOp :=
  if progress.completed_years.contains year then (progress, [])
  else if papers.isEmpty then (progress, [])
  else
    let year_keywords := (papers.map kws).flatten
    let p' : Progress :=
      { completed_years := progress.completed_years ++ [year],
        all_keywords := progress.all_keywords ++ year_keywords }
    (p', save_progress_ops p')

/-! ## Concrete instances used in witnesses and counterexamples -/

/-- The namespace of the spec example: `Lee (2020)` and `Lee (2020a)` up to
`Lee (2020z)` all taken. -/
def takenLee : List String :=
  md_name "Lee" "2020" :: LETTERS.map (fun ch => md_name "Lee" ("2020" ++ String.mk [ch]))

/-- A 101-character abstract. -/
def longAbs : String := String.mk (List.replicate 101 'a')

/-- A CrossRef item whose title list is nonempty but holds the empty string. -/
def itemEmptyTitle : CrossRefItem := ⟨.list [""], longAbs, "10.1/x"⟩

/-- A CrossRef item with an ordinary title and a long abstract. -/
def itemGood : CrossRefItem := ⟨.list ["School Finance"], longAbs, "10.1/y"⟩

/-- A previously persisted checkpoint state. -/
def progress0 : Progress := ⟨[2015], ["school funding"]⟩

/-- A single paper for the 2016 partition. -/
def paper2016 : Paper := ⟨"T", "A", "10.1/z", 2016⟩

/-- A consolidated mapping with 101 entries. -/
def vocab101 : List (String × Nat) :=
  (List.range 101).map (fun i => (String.mk [Char.ofNat (65 + i)], 101 - i))

/-- A concrete realisation of the abstract keyword-count oracle: 1 when the
text contains the methodology keyword `"methodology"`, else 0. -/
def cntEx (s : String) : Nat := if pyIn "methodology" s then 1 else 0

/-- A 599-character keyword-dense block. -/
def bigBlock : String := String.intercalate " " (List.replicate 50 "methodology")

/-- Text whose only keyword run extends to the end of the text. -/
def exText : String := "intro\n\n" ++ bigBlock

/-- Text whose keyword run is terminated by a keyword-free block. -/
def exText2 : String := bigBlock ++ "\n\nintro"

/-- A 300-character pattern candidate. -/
def cand300 : String := String.mk (List.replicate 300 'm')

/-- A 250-character pattern candidate. -/
def cand250 : String := String.mk (List.replicate 250 'q')

/-- Concrete per-pattern match lists with one explicit-header candidate. -/
def msEx : List (List String) := [[cand250], [], [], []]

/-- Concrete per-pattern match lists with one explicit-header candidate. -/
def msEx2 : List (List String) := [[cand300], [], [], []]

/-- A small keyword mapping with pairwise distinct keys. -/
def countsEx : List (String × Nat) := [("panel data", 4), ("data", 2), ("rct", 1)]

/-- The all-zero keyword-count oracle. -/
def cnt0 : String → Nat := fun _ => 0

/-- The paper record produced from `itemGood`. -/
def paperGood : Paper := ⟨"School Finance", longAbs, "10.1/y", 2020⟩

/-- The paper record produced from `itemEmptyTitle`. -/
def paperEmptyTitle : Paper := ⟨"", longAbs, "10.1/x", 2020⟩

instance : IsTotal (String × Nat) (fun a b => b.2 ≤ a.2) :=
  ⟨fun a b => le_total b.2 a.2⟩

instance : IsTrans (String × Nat) (fun a b => b.2 ≤ a.2) :=
  ⟨fun _ _ _ h1 h2 => le_trans h2 h1⟩

/-! ## Helper lemmas: decimal rendering and filename injectivity -/

theorem decDigits_eq_digits : ∀ (fuel n : Nat), n ≤ fuel → decDigits fuel n = Nat.digits 10 n := by
  intro fuel
  induction fuel with
  | zero =>
    intro n hn
    have : n = 0 := Nat.le_zero.mp hn
    subst this
    simp [decDigits]
  | succ f ih =>
    intro n hn
    match n with
    | 0 => simp [decDigits]
    | m + 1 =>
      rw [decDigits, Nat.digits_def' (by norm_num : (1:Nat) < 10) (Nat.succ_pos m)]
      congr 1
      apply ih
      have : (m + 1) / 10 < m + 1 := Nat.div_lt_self (Nat.succ_pos m) (by norm_num)
      omega

theorem digitChar_inj_lt :
    ∀ a, a < 10 → ∀ b, b < 10 → Nat.digitChar a = Nat.digitChar b → a = b := by decide

theorem map_digitChar_inj :
    ∀ (l1 l2 : List Nat), (∀ d ∈ l1, d < 10) → (∀ d ∈ l2, d < 10) →
      l1.map Nat.digitChar = l2.map Nat.digitChar → l1 = l2 := by
  intro l1
  induction l1 with
  | nil => intro l2 _ _ h; cases l2 <;> simp_all
  | cons a t ih =>
    intro l2 h1 h2 h
    cases l2 with
    | nil => simp at h
    | cons b t2 =>
      simp only [List.map_cons, List.cons.injEq] at h
      have ha : a = b :=
        digitChar_inj_lt a (h1 a (by simp)) b (h2 b (by simp)) h.1
      have ht : t = t2 := by
        apply ih t2 (fun d hd => h1 d (by simp [hd])) (fun d hd => h2 d (by simp [hd])) h.2
      simp [ha, ht]

theorem natToStr_pos_eq (n : Nat) (hn : n ≠ 0) :
    natToStr n = String.mk (((Nat.digits 10 n).map Nat.digitChar).reverse) := by
  unfold natToStr
  rw [if_neg hn, decDigits_eq_digits n n le_rfl]

theorem digits_rev_ne_zero_str (n : Nat) (hn : n ≠ 0) :
    ((Nat.digits 10 n).map Nat.digitChar).reverse ≠ ['0'] := by
  intro h
  have hmap : (Nat.digits 10 n).map Nat.digitChar = ['0'] := by
    have := congrArg List.reverse h
    simpa using this
  match hdig : Nat.digits 10 n with
  | [] => rw [hdig] at hmap; simp at hmap
  | [d] =>
    rw [hdig] at hmap
    simp only [List.map_cons, List.map_nil, List.cons.injEq, and_true] at hmap
    have hdlt : d < 10 := Nat.digits_lt_base (by norm_num) (by rw [hdig]; simp)
    have hd0 : d = 0 := digitChar_inj_lt d hdlt 0 (by norm_num) (hmap.trans (by decide))
    have hofd := Nat.ofDigits_digits 10 n
    rw [hdig, hd0] at hofd
    simp [Nat.ofDigits_cons, Nat.ofDigits_nil] at hofd
    exact hn hofd.symm
  | d :: e :: ds => rw [hdig] at hmap; simp at hmap

theorem natToStr_injective : Function.Injective natToStr := by
  intro a b h
  by_cases ha : a = 0 <;> by_cases hb : b = 0
  · rw [ha, hb]
  · exfalso
    rw [ha, natToStr_pos_eq b hb] at h
    have h0 : natToStr 0 = "0" := by simp [natToStr]
    rw [h0] at h
    have hdata : (("0" : String)).data = ((Nat.digits 10 b).map Nat.digitChar).reverse :=
      congrArg String.data h
    exact digits_rev_ne_zero_str b hb (by simpa using hdata.symm)
  · exfalso
    rw [hb, natToStr_pos_eq a ha] at h
    have h0 : natToStr 0 = "0" := by simp [natToStr]
    rw [h0] at h
    have hdata : ((Nat.digits 10 a).map Nat.digitChar).reverse = (("0" : String)).data :=
      congrArg String.data h
    exact digits_rev_ne_zero_str a ha (by simpa using hdata)
  · rw [natToStr_pos_eq a ha, natToStr_pos_eq b hb] at h
    have hrev : ((Nat.digits 10 a).map Nat.digitChar).reverse
        = ((Nat.digits 10 b).map Nat.digitChar).reverse := congrArg String.data h
    have hmap := List.reverse_inj.mp hrev
    have := map_digitChar_inj _ _ (fun d hd => Nat.digits_lt_base (by norm_num) hd)
      (fun d hd => Nat.digits_lt_base (by norm_num) hd) hmap
    exact Nat.digits_inj_iff.mp this

theorem counterName_injective (author year : String) :
    Function.Injective (counterName author year) := by
  intro c1 c2 h
  have hd := congrArg String.data h
  simp only [counterName, md_name, counterYear, String.data_append,
    ← List.append_assoc] at hd
  have h1 := List.append_cancel_right hd
  have h2 := List.append_cancel_left h1
  exact natToStr_injective (String.ext h2)

theorem letterLoop_free : ∀ (ls : List Char) (a y : String) (t : List String)
    (f yr : String) (b : Bool), letterLoop a y t ls = some (f, yr, b) →
    t.contains f = false ∧ b = false := by
  intro ls
  induction ls with
  | nil => intro a y t f yr b h; simp [letterLoop] at h
  | cons ch rest ih =>
    intro a y t f yr b h
    simp only [letterLoop] at h
    by_cases hc : t.contains (md_name a (y ++ String.mk [ch])) = true
    · rw [if_pos hc] at h
      exact ih a y t f yr b h
    · rw [if_neg hc] at h
      simp only [Option.some.injEq, Prod.mk.injEq] at h
      obtain ⟨h1, _, h3⟩ := h
      exact ⟨by rw [← h1]; exact Bool.eq_false_iff.mpr hc, h3.symm⟩

theorem letterLoop_first : ∀ (pre : List Char) (ch : Char) (post : List Char)
    (a y : String) (t : List String),
    (∀ c' ∈ pre, t.contains (md_name a (y ++ String.mk [c'])) = true) →
    t.contains (md_name a (y ++ String.mk [ch])) = false →
    letterLoop a y t (pre ++ ch :: post)
      = some (md_name a (y ++ String.mk [ch]), y ++ String.mk [ch], false) := by
  intro pre
  induction pre with
  | nil =>
    intro ch post a y t _ hfree
    rw [List.nil_append]
    simp only [letterLoop]
    rw [if_neg (by rw [hfree]; simp)]
  | cons c0 rest ih =>
    intro ch post a y t hall hfree
    rw [List.cons_append]
    simp only [letterLoop]
    rw [if_pos (hall c0 (by simp))]
    exact ih ch post a y t (fun c' hc' => hall c' (by simp [hc'])) hfree

theorem letterLoop_none : ∀ (ls : List Char) (a y : String) (t : List String),
    (∀ c' ∈ ls, t.contains (md_name a (y ++ String.mk [c'])) = true) →
    letterLoop a y t ls = none := by
  intro ls
  induction ls with
  | nil => intro a y t _; rfl
  | cons c0 rest ih =>
    intro a y t hall
    simp only [letterLoop]
    rw [if_pos (hall c0 (by simp))]
    exact ih a y t (fun c' hc' => hall c' (by simp [hc']))

theorem counterLoop_first : ∀ (j fuel c : Nat) (a y : String) (t : List String),
    j < fuel →
    (∀ m, m < j → t.contains (counterName a y (c + m)) = true) →
    t.contains (counterName a y (c + j)) = false →
    counterLoop a y t fuel c
      = some (counterName a y (c + j), counterYear y (c + j), false) := by
  intro j
  induction j with
  | zero =>
    intro fuel c a y t hj hall hfree
    match fuel with
    | f + 1 =>
      simp only [counterLoop]
      rw [if_neg (by simp only [Nat.add_zero] at hfree; rw [hfree]; simp)]
      simp
  | succ j' ih =>
    intro fuel c a y t hj hall hfree
    match fuel with
    | f + 1 =>
      simp only [counterLoop]
      rw [if_pos (by have := hall 0 (by omega); simpa using this)]
      have heq : c + 1 + j' = c + (j' + 1) := by omega
      have := ih f (c + 1) a y t (by omega)
        (fun m hm => by
          have := hall (m + 1) (by omega)
          rwa [show c + (m + 1) = c + 1 + m from by omega] at this)
        (by rwa [← heq] at hfree)
      rwa [heq] at this

theorem counterLoop_some (fuel c : Nat) (a y : String) (t : List String)
    (h : ∃ j, j < fuel ∧ t.contains (counterName a y (c + j)) = false) :
    ∃ f yr, counterLoop a y t fuel c = some (f, yr, false) ∧
      t.contains f = false := by
  obtain ⟨j, hj, hfree⟩ := h
  have hP : ∃ j, t.contains (counterName a y (c + j)) = false := ⟨j, hfree⟩
  have hmin := Nat.find_spec hP
  have hle : Nat.find hP ≤ j := Nat.find_min' hP hfree
  have hall : ∀ m, m < Nat.find hP → t.contains (counterName a y (c + m)) = true := by
    intro m hm
    have := Nat.find_min hP hm
    cases hcb : t.contains (counterName a y (c + m)) with
    | false => exact absurd hcb this
    | true => rfl
  refine ⟨counterName a y (c + Nat.find hP), counterYear y (c + Nat.find hP),
    counterLoop_first (Nat.find hP) fuel c a y t (by omega) hall hmin, hmin⟩

theorem counter_exists_free (a y : String) (t : List String) :
    ∃ j, j < t.length + 1 ∧ t.contains (counterName a y (1 + j)) = false := by
  by_contra hcon
  push_neg at hcon
  have hmem : ∀ j ∈ Finset.range (t.length + 1),
      counterName a y (1 + j) ∈ t.toFinset := by
    intro j hj
    rw [List.mem_toFinset]
    have hne := hcon j (Finset.mem_range.mp hj)
    have hb : t.contains (counterName a y (1 + j)) = true := by
      cases hcb : t.contains (counterName a y (1 + j)) with
      | false => exact absurd hcb hne
      | true => rfl
    simpa using hb
  have hcard : t.toFinset.card < (Finset.range (t.length + 1)).card := by
    have := List.toFinset_card_le t
    rw [Finset.card_range]
    omega
  obtain ⟨i, _, j, _, hne, heq⟩ :=
    Finset.exists_ne_map_eq_of_card_lt_of_maps_to hcard hmem
  have := counterName_injective a y heq
  omega

/-- Claim C7: under the `suffix` collision policy, for every finite set of
taken identifiers the resolver terminates (the embedded fuel, one more
than the number of taken names, always suffices) and returns a filename
that is not already taken, with the `is_replacing` flag `false` — it never
silently overwrites an existing identifier. -/
theorem get_unique_filename_suffix_fresh (author year : String) (taken : List String) :
    ∃ f yr, get_unique_filename author year taken .suffix = some (f, yr, false) ∧
      taken.contains f = false := by
  simp only [get_unique_filename]
  by_cases hb : taken.contains (md_name author year) = true
  · rw [if_pos hb]
    cases hL : letterLoop author year taken LETTERS with
    | some r =>
      obtain ⟨f, yr, b⟩ := r
      have hfb := letterLoop_free LETTERS author year taken f yr b hL
      exact ⟨f, yr, by rw [hfb.2], hfb.1⟩
    | none =>
      obtain ⟨j, hj, hfree⟩ := counter_exists_free author year taken
      exact counterLoop_some (taken.length + 1) 1 author year taken ⟨j, hj, hfree⟩
  · rw [if_neg hb]
    exact ⟨md_name author year, year, rfl, Bool.eq_false_iff.mpr hb⟩

/-- Claim C6: under the `suffix` policy the resolver returns
`author (year)` when that name is free; otherwise the first free
letter-suffixed name `year+a` … `year+z` in order; if all 26 letter names
are taken, the first free numeric name `year-1`, `year-2`, …; in
particular, with `Lee (2020)` and `Lee (2020a)` … `Lee (2020z)` all taken,
author `Lee` and year `2020` resolve to `Lee (2020-1)`. -/
theorem get_unique_filename_suffix_order :
    (∀ (a y : String) (t : List String), t.contains (md_name a y) = false →
        get_unique_filename a y t .suffix = some (md_name a y, y, false))
    ∧ (∀ (a y : String) (t : List String) (pre : List Char) (ch : Char) (post : List Char),
        LETTERS = pre ++ ch :: post →
        t.contains (md_name a y) = true →
        (∀ c' ∈ pre, t.contains (md_name a (y ++ String.mk [c'])) = true) →
        t.contains (md_name a (y ++ String.mk [ch])) = false →
        get_unique_filename a y t .suffix
          = some (md_name a (y ++ String.mk [ch]), y ++ String.mk [ch], false))
    ∧ (∀ (a y : String) (t : List String) (j : Nat),
        t.contains (md_name a y) = true →
        (∀ c' ∈ LETTERS, t.contains (md_name a (y ++ String.mk [c'])) = true) →
        (∀ m, m < j → t.contains (counterName a y (1 + m)) = true) →
        t.contains (counterName a y (1 + j)) = false →
        get_unique_filename a y t .suffix
          = some (counterName a y (1 + j), counterYear y (1 + j), false))
    ∧ get_unique_filename "Lee" "2020" takenLee .suffix
        = some ("Lee (2020-1).md", "2020-1", false) := by
  refine ⟨?_, ?_, ?_, by decide⟩
  · intro a y t hfree
    simp only [get_unique_filename]
    rw [if_neg (by rw [hfree]; simp)]
  · intro a y t pre ch post hsplit hbase hall hfree
    simp only [get_unique_filename]
    rw [if_pos hbase, hsplit, letterLoop_first pre ch post a y t hall hfree]
  · intro a y t j hbase hletters hall hfree
    simp only [get_unique_filename]
    rw [if_pos hbase, letterLoop_none LETTERS a y t hletters]
    have hle : j ≤ t.length := by
      have hinj : Function.Injective (fun m : Nat => counterName a y (1 + m)) := by
        intro m1 m2 h
        have := counterName_injective a y h
        omega
      have hsub : ∀ m ∈ Finset.range j, counterName a y (1 + m) ∈ t.toFinset := by
        intro m hm
        rw [List.mem_toFinset]
        have := hall m (Finset.mem_range.mp hm)
        simpa using this
      have hcard := Finset.card_le_card_of_injOn
        (fun m : Nat => counterName a y (1 + m)) hsub (hinj.injOn)
      rw [Finset.card_range] at hcard
      exact le_trans hcard (List.toFinset_card_le t)
    exact counterLoop_first j (t.length + 1) 1 a y t (by omega) hall hfree

/-- Witness for C6: with only `Kim (2019)` taken, the resolver picks the
first letter suffix `a`. -/
theorem get_unique_filename_suffix_order_witness :
    get_unique_filename "Kim" "2019" [md_name "Kim" "2019"] .suffix
      = some (md_name "Kim" ("2019" ++ String.mk ['a']),
          "2019" ++ String.mk ['a'], false) :=
  get_unique_filename_suffix_order.2.1 "Kim" "2019" [md_name "Kim" "2019"]
    [] 'a' "bcdefghijklmnopqrstuvwxyz".data (by decide) (by decide)
    (by intro c' hc'; cases hc') (by decide)

/-- Claim C3: in the step model of `process_year` and `save_progress`,
(i) the checkpoint file is written only by the single whole-state save
issued after the document loop of a partition finishes, so an
interruption during the loop leaves the persisted state intact and the
year outside the persisted completed set; but (ii) `save_progress` opens
`PROGRESS_FILE` with mode `'w'`, which truncates it before `json.dump`
runs, so a failure between the truncation and the completed dump leaves
the file invalid: the previously persisted valid state is destroyed by an
unsuccessful write, contradicting the all-or-nothing half of the claim. -/
theorem process_year_checkpoint_steps :
    (∀ (year : Nat) (papers : List Paper) (kws : Paper → List String) (pr : Progress),
        (process_year year papers kws pr).2 = []
        ∨ (process_year year papers kws pr).2
            = save_progress_ops (process_year year papers kws pr).1)
    ∧ runOps (.valid progress0)
        ((process_year 2016 [paper2016] (fun _ => ["fixed effects"]) progress0).2.take 0)
        = .valid progress0
    ∧ progress0.completed_years.contains 2016 = false
    ∧ runOps (.valid progress0)
        ((process_year 2016 [paper2016] (fun _ => ["fixed effects"]) progress0).2.take 1)
        = .invalid
    ∧ (∀ q : Progress, FileContent.invalid ≠ FileContent.valid q)
    ∧ runOps (.valid progress0)
        (process_year 2016 [paper2016] (fun _ => ["fixed effects"]) progress0).2
        = .valid ⟨[2015, 2016], ["school funding", "fixed effects"]⟩ := by
  refine ⟨?_, by decide, by decide, by decide, fun q => by simp, by decide⟩
  intro year papers kws pr
  simp only [process_year]
  by_cases h1 : pr.completed_years.contains year = true
  · rw [if_pos h1]
    left
    rfl
  · rw [if_neg h1]
    by_cases h2 : papers.isEmpty = true
    · rw [if_pos h2]
      left
      rfl
    · rw [if_neg h2]
      right
      rfl

/-- Claim C10 (amended): every document admitted by `get_papers_for_year`
has a truthy (present and nonempty) `title` field and an abstract that,
after XML-tag stripping and whitespace trimming, is nonempty and strictly
longer than 100 characters — so the abstract-based keyword derivation in
the batch driver never runs on an empty abstract.  The extracted title
*string* itself, however, can be empty (when the title list's first
element is the empty string); that is the one correction to the claim. -/
theorem get_papers_filter (year : Nat) (items : List CrossRefItem) :
    ∀ p ∈ get_papers_for_year year items,
      100 < p.abstract.length ∧ p.abstract ≠ "" ∧
      ∃ item ∈ items, titleTruthy item.title = true ∧
        p.title = titleValue item.title ∧ item.abstract ≠ "" ∧
        p.abstract = pyStrip (stripXmlTags item.abstract) := by
  intro p hp
  rw [get_papers_for_year, List.mem_filterMap] at hp
  obtain ⟨item, hitem, heq⟩ := hp
  by_cases ht : titleTruthy item.title = true
  · rw [if_pos ht] at heq
    by_cases hc : processedAbstract item ≠ "" ∧ 100 < (processedAbstract item).length
    · rw [if_pos hc] at heq
      have hp' := Option.some.inj heq
      have habs : p.abstract = processedAbstract item := by rw [← hp']
      have hne : item.abstract ≠ "" := by
        intro h0
        apply hc.1
        rw [processedAbstract, if_neg (by simp [h0]), h0]
      refine ⟨by rw [habs]; exact hc.2, by rw [habs]; exact hc.1,
        item, hitem, ht, by rw [← hp'], hne, ?_⟩
      rw [habs, processedAbstract, if_pos hne]
    · rw [if_neg hc] at heq
      cases heq
  · rw [if_neg ht] at heq
    cases heq

/-- Witness for C10: the single-item list `[itemGood]` yields `paperGood`,
whose processed abstract is 101 characters long. -/
theorem get_papers_filter_witness :
    100 < paperGood.abstract.length ∧ paperGood.abstract ≠ "" ∧
      ∃ item ∈ [itemGood], titleTruthy item.title = true ∧
        paperGood.title = titleValue item.title ∧ item.abstract ≠ "" ∧
        paperGood.abstract = pyStrip (stripXmlTags item.abstract) :=
  get_papers_filter 2020 [itemGood] paperGood (by decide)

/-- Counterexample for C10 as stated: an item whose title list is `[""]`
passes the title check, so a paper with an *empty* title string is
admitted (with a fully qualifying abstract). -/
theorem get_papers_empty_title_cex :
    get_papers_for_year 2020 [itemEmptyTitle] = [paperEmptyTitle]
    ∧ paperEmptyTitle.title = "" := by
  exact ⟨by decide, rfl⟩

/-! ## Sorting lemmas for the final vocabulary -/

theorem sortByCountDesc_perm (l : List (String × Nat)) :
    (sortByCountDesc l).Perm l :=
  List.perm_insertionSort _ l

theorem sortByCountDesc_sorted (l : List (String × Nat)) :
    List.Sorted (fun a b : String × Nat => b.2 ≤ a.2) (sortByCountDesc l) :=
  List.sorted_insertionSort _ l

theorem filter_orderedInsert_count (c : Nat) (x : String × Nat) :
    ∀ l : List (String × Nat),
      (List.orderedInsert (fun a b : String × Nat => b.2 ≤ a.2) x l).filter
          (fun p => p.2 == c)
        = ((x :: l).filter (fun p => p.2 == c)) := by
  intro l
  induction l with
  | nil => rfl
  | cons b t ih =>
    simp only [List.orderedInsert]
    by_cases hle : b.2 ≤ x.2
    · rw [if_pos hle]
    · rw [if_neg hle]
      by_cases hPb : (b.2 == c) = true <;> by_cases hPx : (x.2 == c) = true
      · exfalso
        have hb := beq_iff_eq.mp hPb
        have hx := beq_iff_eq.mp hPx
        omega
      · simp only [List.filter_cons, hPb, hPx, if_true, if_false, Bool.false_eq_true,
          ite_false, ite_true, ih, List.filter_cons]
      · simp only [List.filter_cons, hPb, hPx, if_true, if_false, Bool.false_eq_true,
          ite_false, ite_true, ih, List.filter_cons]
      · simp only [List.filter_cons, hPb, hPx, if_true, if_false, Bool.false_eq_true,
          ite_false, ite_true, ih, List.filter_cons]

theorem filter_sortByCountDesc (c : Nat) (l : List (String × Nat)) :
    (sortByCountDesc l).filter (fun p => p.2 == c)
      = l.filter (fun p => p.2 == c) := by
  induction l with
  | nil => rfl
  | cons x t ih =>
    show (List.orderedInsert _ x (sortByCountDesc t)).filter _ = _
    rw [filter_orderedInsert_count c x (sortByCountDesc t)]
    simp only [List.filter_cons, ih]

/-- Claim C8: whenever the consolidated mapping has more than
`TOP_N_KEYWORDS` entries, the final vocabulary has exactly
`TOP_N_KEYWORDS` entries, sorted by aggregate count descending, and ties
between equal counts keep the order in which entries were created: the
sort is stable, i.e. restricting the sorted list to any fixed count value
returns exactly those entries in their original (creation) order. -/
theorem top_keywords_spec (m : List (String × Nat)) (h : TOP_N_KEYWORDS < m.length) :
    (top_keywords m).length = TOP_N_KEYWORDS
    ∧ List.Sorted (fun a b : String × Nat => b.2 ≤ a.2) (top_keywords m)
    ∧ ∀ c : Nat, (sortByCountDesc m).filter (fun p => p.2 == c)
        = m.filter (fun p => p.2 == c) := by
  refine ⟨?_, ?_, fun c => filter_sortByCountDesc c m⟩
  · rw [top_keywords, List.length_take, (sortByCountDesc_perm m).length_eq]
    omega
  · exact List.Pairwise.sublist (List.take_sublist _ _) (sortByCountDesc_sorted m)

/-- Witness for C8 at a concrete 101-entry consolidated mapping. -/
theorem top_keywords_spec_witness :
    TOP_N_KEYWORDS < vocab101.length
    ∧ (top_keywords vocab101).length = TOP_N_KEYWORDS :=
  ⟨by decide, (top_keywords_spec vocab101 (by decide)).1⟩

theorem contains_eq_true_iff {l : List String} {x : String} :
    l.contains x = true ↔ x ∈ l := by simp

theorem contains_eq_false_iff {l : List String} {x : String} :
    l.contains x = false ↔ x ∉ l := by
  rw [Bool.eq_false_iff]
  simp

theorem filter_perm_split {α : Type} (p q : α → Bool) :
    ∀ (l : List α),
      (l.filter p).Perm
        (l.filter (fun a => p a && q a) ++ l.filter (fun a => p a && !(q a))) := by
  intro l
  induction l with
  | nil => simp
  | cons a t ih =>
    by_cases hp : p a = true
    · by_cases hq : q a = true
      · simp only [List.filter_cons, hp, hq, Bool.and_self, Bool.not_true,
          Bool.and_false, Bool.and_true, if_true, if_false]
        simp only [Bool.false_eq_true, ite_false, ite_true]
        exact (ih.cons a)
      · have hq' : q a = false := Bool.eq_false_iff.mpr hq
        simp only [List.filter_cons, hp, hq', Bool.and_false, Bool.not_false,
          Bool.and_true, if_true, if_false]
        simp only [Bool.false_eq_true, ite_false, ite_true]
        exact (ih.cons a).trans List.perm_middle.symm
    · have hp' : p a = false := Bool.eq_false_iff.mpr hp
      simp only [List.filter_cons, hp', Bool.false_and, if_false]
      simp only [Bool.false_eq_true, ite_false]
      exact ih

theorem consolidateClusters_flatten_perm :
    ∀ (rest pre : List (String × Nat)) (processed : List String),
      ((pre ++ rest).map Prod.fst).Nodup →
      (∀ q ∈ pre, q.1 ∈ processed) →
      (((consolidateClusters rest (pre ++ rest) processed).map clusterMembers).flatten).Perm
        (rest.filter (fun u => !(processed.contains u.1))) := by
  intro rest
  induction rest with
  | nil =>
    intro pre processed _ _
    simp [consolidateClusters]
  | cons kc rest' ih =>
    intro pre processed hnodup hpre
    obtain ⟨k, c⟩ := kc
    have hfull : pre ++ (k, c) :: rest' = (pre ++ [(k, c)]) ++ rest' := by simp
    by_cases hk : processed.contains k = true
    · simp only [consolidateClusters, if_pos hk]
      rw [hfull]
      have hres := ih (pre ++ [(k, c)]) processed
        (by rw [← hfull]; exact hnodup)
        (by
          intro q hq
          rcases List.mem_append.mp hq with hq | hq
          · exact hpre q hq
          · simp only [List.mem_singleton] at hq
            subst hq
            exact contains_eq_true_iff.mp hk)
      refine hres.trans ?_
      rw [List.filter_cons]
      dsimp only
      rw [hk, Bool.not_true, if_neg (by simp)]
    · have hkf : processed.contains k = false := Bool.eq_false_iff.mpr hk
      simp only [consolidateClusters, if_neg hk]
      have hothers : similarOthers k (pre ++ (k, c) :: rest') processed
          = rest'.filter (fun u =>
              !(processed.contains u.1) && u.1 != k && (pyIn k u.1 || pyIn u.1 k)) := by
        rw [similarOthers, List.filter_append, List.filter_cons]
        have hpre0 : pre.filter (fun u =>
            !(processed.contains u.1) && u.1 != k && (pyIn k u.1 || pyIn u.1 k)) = [] := by
          rw [List.filter_eq_nil_iff]
          intro a ha hcontra
          simp only [Bool.and_eq_true, Bool.not_eq_true'] at hcontra
          exact (contains_eq_false_iff.mp hcontra.1.1) (hpre a ha)
        rw [hpre0]
        dsimp only
        rw [hkf]
        simp
      have hnodup2 : (((k, c) :: rest').map Prod.fst).Nodup := by
        rw [List.map_append] at hnodup
        exact hnodup.of_append_right
      have hknotin : k ∉ rest'.map Prod.fst := by
        rw [List.map_cons] at hnodup2
        exact (List.nodup_cons.mp hnodup2).1
      have hrestNodup : (rest'.map Prod.fst).Nodup := by
        rw [List.map_cons] at hnodup2
        exact (List.nodup_cons.mp hnodup2).2
      have hinj := List.inj_on_of_nodup_map hrestNodup
      have hmemL : ∀ u ∈ rest', ((u.1 ∈ (rest'.filter (fun v =>
          !(processed.contains v.1) && v.1 != k
            && (pyIn k v.1 || pyIn v.1 k))).map Prod.fst)
          ↔ (u.1 ∉ processed ∧ (u.1 != k && (pyIn k u.1 || pyIn u.1 k)) = true)) := by
        intro u hu
        constructor
        · intro hm
          obtain ⟨u', hu', heq⟩ := List.mem_map.mp hm
          obtain ⟨hu'r, hPf⟩ := List.mem_filter.mp hu'
          have : u' = u := hinj hu'r hu heq
          subst this
          simp only [Bool.and_eq_true, Bool.not_eq_true'] at hPf
          refine ⟨contains_eq_false_iff.mp hPf.1.1, ?_⟩
          simp only [Bool.and_eq_true]
          exact ⟨hPf.1.2, hPf.2⟩
        · rintro ⟨hnp, hq⟩
          have hcont : processed.contains u.1 = false := contains_eq_false_iff.mpr hnp
          have hmemf : u ∈ rest'.filter (fun v =>
              !(processed.contains v.1) && v.1 != k
                && (pyIn k v.1 || pyIn v.1 k)) := by
            rw [List.mem_filter]
            refine ⟨hu, ?_⟩
            simp only [Bool.and_eq_true] at hq ⊢
            exact ⟨⟨by rw [hcont]; rfl, hq.1⟩, hq.2⟩
          exact List.mem_map_of_mem Prod.fst hmemf
      have hbridge : ∀ u ∈ rest',
          (!((k :: (rest'.filter (fun v =>
              !(processed.contains v.1) && v.1 != k
                && (pyIn k v.1 || pyIn v.1 k))).map Prod.fst ++ processed).contains u.1))
            = (!(processed.contains u.1)
                && !(u.1 != k && (pyIn k u.1 || pyIn u.1 k))) := by
        intro u hu
        have hok : u.1 ≠ k := by
          intro h
          exact hknotin (h ▸ List.mem_map_of_mem Prod.fst hu)
        by_cases hp : u.1 ∈ processed
        · have h2 : processed.contains u.1 = true := contains_eq_true_iff.mpr hp
          have h1 : ((k :: (rest'.filter (fun v =>
              !(processed.contains v.1) && v.1 != k
                && (pyIn k v.1 || pyIn v.1 k))).map Prod.fst ++ processed).contains u.1)
              = true := by
            rw [contains_eq_true_iff]
            exact List.mem_cons_of_mem _ (List.mem_append_right _ hp)
          rw [h1, h2]
          simp
        · have h2 : processed.contains u.1 = false := contains_eq_false_iff.mpr hp
          by_cases hq : (u.1 != k && (pyIn k u.1 || pyIn u.1 k)) = true
          · have h1 : ((k :: (rest'.filter (fun v =>
                !(processed.contains v.1) && v.1 != k
                  && (pyIn k v.1 || pyIn v.1 k))).map Prod.fst ++ processed).contains u.1)
                = true := by
              rw [contains_eq_true_iff]
              exact List.mem_cons_of_mem _
                (List.mem_append_left _ ((hmemL u hu).mpr ⟨hp, hq⟩))
            rw [h1, h2, hq]
            simp
          · have hq' : (u.1 != k && (pyIn k u.1 || pyIn u.1 k)) = false :=
              Bool.eq_false_iff.mpr hq
            have h1 : ((k :: (rest'.filter (fun v =>
                !(processed.contains v.1) && v.1 != k
                  && (pyIn k v.1 || pyIn v.1 k))).map Prod.fst ++ processed).contains u.1)
                = false := by
              rw [contains_eq_false_iff]
              intro hct
              rcases List.mem_cons.mp hct with h | h
              · exact hok h
              · rcases List.mem_append.mp h with h | h
                · exact hq ((hmemL u hu).mp h).2
                · exact hp h
            rw [h1, h2, hq']
            simp
      have hrec := ih (pre ++ [(k, c)])
        (k :: (rest'.filter (fun v =>
            !(processed.contains v.1) && v.1 != k
              && (pyIn k v.1 || pyIn v.1 k))).map Prod.fst ++ processed)
        (by rw [← hfull]; exact hnodup)
        (by
          intro q hq
          rcases List.mem_append.mp hq with hq | hq
          · exact List.mem_cons_of_mem _ (List.mem_append_right _ (hpre q hq))
          · simp only [List.mem_singleton] at hq
            subst hq
            exact List.mem_cons_self _ _)
      rw [List.filter_congr hbridge] at hrec
      rw [hothers, hfull]
      simp only [List.map_cons, List.flatten_cons, clusterMembers]
      rw [List.filter_cons]
      dsimp only
      rw [hkf, Bool.not_false, if_pos rfl]
      refine List.Perm.trans ?_ (List.Perm.cons (k, c)
        (filter_perm_split (fun u : String × Nat => !(processed.contains u.1))
          (fun u : String × Nat => u.1 != k && (pyIn k u.1 || pyIn u.1 k)) rest').symm)
      rw [List.cons_append]
      refine List.Perm.cons (k, c) ?_
      refine List.Perm.append ?_ ?_
      · have hPfEq2 : rest'.filter (fun u =>
            !(processed.contains u.1) && u.1 != k && (pyIn k u.1 || pyIn u.1 k))
            = rest'.filter (fun u =>
                !(processed.contains u.1) && (u.1 != k && (pyIn k u.1 || pyIn u.1 k))) := by
          apply List.filter_congr
          intro x _
          rw [Bool.and_assoc]
        exact hPfEq2 ▸ List.Perm.refl _
      · exact hrec

theorem count_sum_one_countP {α : Type} [BEq α] [LawfulBEq α] (k : α) :
    ∀ (L : List (List α)), (L.map (List.count k)).sum = 1 →
      L.countP (fun l => l.contains k) = 1 := by
  intro L
  induction L with
  | nil => intro h; simp at h
  | cons l t ih =>
    intro h
    simp only [List.map_cons, List.sum_cons] at h
    rw [List.countP_cons]
    by_cases hc : List.count k l = 0
    · have ht : (t.map (List.count k)).sum = 1 := by omega
      have hcf : l.contains k = false := by
        have hnm : k ∉ l := List.count_eq_zero.mp hc
        rw [Bool.eq_false_iff]
        intro hct
        exact hnm (by simpa using hct)
      rw [ih ht, hcf]
      simp
    · have hmem : k ∈ l := List.count_pos_iff.mp (by omega)
      have hct : l.contains k = true := by simpa using hmem
      have hts : (t.map (List.count k)).sum = 0 := by
        have : 0 < List.count k l := by omega
        omega
      have ht0 : t.countP (fun l => l.contains k) = 0 := by
        rw [List.countP_eq_zero]
        intro l' hl' hcontra
        have h0 : List.count k l' = 0 :=
          List.sum_eq_zero_iff.mp hts _ (List.mem_map_of_mem _ hl')
        have : k ∉ l' := List.count_eq_zero.mp h0
        exact this (by simpa using hcontra)
      rw [ht0, hct]
      simp

theorem clusterRep_foldl_le :
    ∀ (l : List (String × Nat)) (init : String),
      init.length ≤ (l.foldl
          (fun acc o => if acc.length < o.1.length then o.1 else acc) init).length
      ∧ ∀ x ∈ l, x.1.length ≤ (l.foldl
          (fun acc o => if acc.length < o.1.length then o.1 else acc) init).length := by
  intro l
  induction l with
  | nil => intro init; exact ⟨le_rfl, by simp⟩
  | cons o t ih =>
    intro init
    simp only [List.foldl_cons]
    have h1 : init.length ≤ (if init.length < o.1.length then o.1 else init).length := by
      split <;> omega
    have h2 : o.1.length ≤ (if init.length < o.1.length then o.1 else init).length := by
      split <;> omega
    refine ⟨le_trans h1 (ih _).1, ?_⟩
    intro x hx
    rcases List.mem_cons.mp hx with hx | hx
    · rw [hx]
      exact le_trans h2 (ih _).1
    · exact (ih _).2 x hx

/-- Claim C1: for every input keyword-count mapping (a `Counter`, so keys
are pairwise distinct), consolidation preserves the total count (the sum
of aggregate counts equals the sum of input counts), assigns every input
keyword to exactly one cluster, and the representative of each cluster is
at least as long as every member; moreover the multiset of all cluster
members is exactly the input mapping. -/
theorem consolidate_invariants (counts : List (String × Nat))
    (h : (counts.map Prod.fst).Nodup) :
    ((consolidate_similar_keywords counts).map Prod.snd).sum
        = (counts.map Prod.snd).sum
    ∧ (∀ k ∈ counts.map Prod.fst,
        (clustersOf counts).countP
          (fun g => ((clusterMembers g).map Prod.fst).contains k) = 1)
    ∧ (∀ g ∈ clustersOf counts, ∀ x ∈ clusterMembers g,
        x.1.length ≤ (clusterRep g).length)
    ∧ (((clustersOf counts).map clusterMembers).flatten).Perm counts := by
  have hsortperm : (sortByCountDesc counts).Perm counts := sortByCountDesc_perm counts
  have hnodup : ((sortByCountDesc counts).map Prod.fst).Nodup :=
    ((hsortperm.map Prod.fst).nodup_iff).mpr h
  have hmain := consolidateClusters_flatten_perm (sortByCountDesc counts) [] []
    (by simpa using hnodup) (by simp)
  simp only [List.nil_append] at hmain
  have hfiltertrue : (sortByCountDesc counts).filter
      (fun u => !(List.contains ([] : List String) u.1)) = sortByCountDesc counts := by
    apply List.filter_eq_self.mpr
    intro a _
    rfl
  rw [hfiltertrue] at hmain
  have hflat : (((clustersOf counts).map clusterMembers).flatten).Perm counts := by
    rw [clustersOf]
    exact hmain.trans hsortperm
  refine ⟨?_, ?_, ?_, hflat⟩
  · have hstep : ((((clustersOf counts).map clusterMembers).flatten).map Prod.snd).sum
        = ((consolidate_similar_keywords counts).map Prod.snd).sum := by
      rw [List.map_flatten, List.map_map, List.sum_flatten, List.map_map]
      show _ = (List.map Prod.snd ((clustersOf counts).map
        (fun g => (clusterRep g, clusterTotal g)))).sum
      rw [List.map_map]
      rfl
    rw [← hstep]
    exact (hflat.map Prod.snd).sum_eq
  · intro k hk
    have hcount1 : List.count k (counts.map Prod.fst) = 1 :=
      List.count_eq_one_of_mem h hk
    have hc2 : List.count k ((((clustersOf counts).map clusterMembers).flatten).map
        Prod.fst) = 1 := by
      rw [(hflat.map Prod.fst).count_eq]
      exact hcount1
    rw [List.map_flatten, List.map_map, List.count_flatten, List.map_map] at hc2
    have hone := count_sum_one_countP k
      ((clustersOf counts).map (fun g => (clusterMembers g).map Prod.fst)) (by
        rw [List.map_map]
        exact hc2)
    rw [List.countP_map] at hone
    exact hone
  · intro g _ x hx
    simp only [clusterMembers] at hx
    rcases List.mem_cons.mp hx with hx | hx
    · rw [hx]
      exact (clusterRep_foldl_le g.2 g.1.1).1
    · exact (clusterRep_foldl_le g.2 g.1.1).2 x hx

/-- Witness for C1 at a concrete three-key mapping. -/
theorem consolidate_invariants_witness :
    (countsEx.map Prod.fst).Nodup ∧
    ((consolidate_similar_keywords countsEx).map Prod.snd).sum
      = (countsEx.map Prod.snd).sum :=
  ⟨by decide, (consolidate_invariants countsEx (by decide)).1⟩

/-- Claim C9: consolidating `regression: 5`, `regression discontinuity: 3`,
`rdd: 1` yields exactly the two clusters `regression discontinuity: 8`
(longest member as representative) and `rdd: 1`, and indeed `rdd` is not
in a substring relation with either other keyword. -/
theorem consolidate_rdd_example :
    consolidate_similar_keywords
        [("regression", 5), ("regression discontinuity", 3), ("rdd", 1)]
      = [("regression discontinuity", 8), ("rdd", 1)]
    ∧ pyIn "rdd" "regression" = false
    ∧ pyIn "regression" "rdd" = false
    ∧ pyIn "rdd" "regression discontinuity" = false
    ∧ pyIn "regression discontinuity" "rdd" = false := by decide

/-! ## Extractor lemmas -/

theorem truncate25k_length (s : String) : (truncate25k s).length = min s.length 25000 := by
  rw [truncate25k]
  split
  · rename_i h
    have h0 : (String.mk (s.data.take 25000)).length = (s.data.take 25000).length := rfl
    rw [h0, List.length_take]
    have hs : s.data.length = s.length := rfl
    omega
  · rename_i h
    omega

theorem selectBestAux_some_of_some :
    ∀ (l : List String) (b : String) (bl : Nat),
      ∃ r, selectBestAux l (some b) bl = some r := by
  intro l
  induction l with
  | nil => intro b bl; exact ⟨b, rfl⟩
  | cons m rest ih =>
    intro b bl
    simp only [selectBestAux]
    by_cases h1 : m.length < 200
    · rw [if_pos h1]
      exact ih b bl
    · rw [if_neg h1]
      by_cases h2 : bl < (truncate25k m).length
      · rw [if_pos h2]
        exact ih _ _
      · rw [if_neg h2]
        exact ih b bl

theorem selectBestAux_none_iff :
    ∀ (l : List String), (selectBestAux l none 0 = none ↔ ∀ m ∈ l, m.length < 200) := by
  intro l
  induction l with
  | nil => simp [selectBestAux]
  | cons m rest ih =>
    simp only [selectBestAux]
    by_cases h1 : m.length < 200
    · rw [if_pos h1]
      constructor
      · intro h m' hm'
        rcases List.mem_cons.mp hm' with hm' | hm'
        · rw [hm']
          exact h1
        · exact (ih.mp h) m' hm'
      · intro hall
        exact ih.mpr (fun m' hm' => hall m' (List.mem_cons_of_mem _ hm'))
    · rw [if_neg h1]
      have hpos : 0 < (truncate25k m).length := by
        rw [truncate25k_length]
        omega
      rw [if_pos hpos]
      constructor
      · intro h
        obtain ⟨r, hr⟩ := selectBestAux_some_of_some rest (truncate25k m) (truncate25k m).length
        rw [hr] at h
        cases h
      · intro hall
        exact absurd (hall m (List.mem_cons_self _ _)) h1

theorem selectBestAux_mono :
    ∀ (l : List String) (b : Option String) (bl : Nat) (r : String),
      (∀ x, b = some x → bl ≤ x.length) →
      selectBestAux l b bl = some r → bl ≤ r.length := by
  intro l
  induction l with
  | nil =>
    intro b bl r hinv h
    cases b with
    | none => cases h
    | some x =>
      have hx : x = r := by simpa [selectBestAux] using h
      rw [← hx]
      exact hinv x rfl
  | cons m rest ih =>
    intro b bl r hinv h
    simp only [selectBestAux] at h
    by_cases h1 : m.length < 200
    · rw [if_pos h1] at h
      exact ih b bl r hinv h
    · rw [if_neg h1] at h
      by_cases h2 : bl < (truncate25k m).length
      · rw [if_pos h2] at h
        have := ih _ _ r (fun x hx => by rw [← Option.some.inj hx]) h
        omega
      · rw [if_neg h2] at h
        exact ih b bl r hinv h

theorem selectBestAux_dom :
    ∀ (l : List String) (b : Option String) (bl : Nat) (r : String),
      (∀ x, b = some x → bl ≤ x.length) →
      selectBestAux l b bl = some r →
      ∀ m ∈ l, 200 ≤ m.length → (truncate25k m).length ≤ r.length := by
  intro l
  induction l with
  | nil =>
    intro b bl r _ _ m hm
    cases hm
  | cons m0 rest ih =>
    intro b bl r hinv h m hm hq
    simp only [selectBestAux] at h
    by_cases h1 : m0.length < 200
    · rw [if_pos h1] at h
      rcases List.mem_cons.mp hm with hm | hm
      · subst hm
        omega
      · exact ih b bl r hinv h m hm hq
    · rw [if_neg h1] at h
      by_cases h2 : bl < (truncate25k m0).length
      · rw [if_pos h2] at h
        rcases List.mem_cons.mp hm with hm | hm
        · subst hm
          exact selectBestAux_mono rest _ _ r (fun x hx => by rw [← Option.some.inj hx]) h
        · exact ih _ _ r (fun x hx => by rw [← Option.some.inj hx]) h m hm hq
      · rw [if_neg h2] at h
        have hble := selectBestAux_mono rest b bl r hinv h
        rcases List.mem_cons.mp hm with hm | hm
        · subst hm
          omega
        · exact ih b bl r hinv h m hm hq

theorem selectBestAux_from_state :
    ∀ (l : List String) (x : String) (r : String),
      selectBestAux l (some x) x.length = some r →
      r = x ∨ ∃ pre m post, l = pre ++ m :: post ∧ 200 ≤ m.length
        ∧ r = truncate25k m ∧ x.length < r.length
        ∧ ∀ m' ∈ pre, 200 ≤ m'.length → (truncate25k m').length < r.length := by
  intro l
  induction l with
  | nil =>
    intro x r h
    left
    have hx : x = r := by simpa [selectBestAux] using h
    exact hx.symm
  | cons m0 rest ih =>
    intro x r h
    simp only [selectBestAux] at h
    by_cases h1 : m0.length < 200
    · rw [if_pos h1] at h
      rcases ih x r h with hl | ⟨pre, m, post, hsplit, hq, hr, hlt, hpre⟩
      · exact Or.inl hl
      · refine Or.inr ⟨m0 :: pre, m, post, by rw [hsplit, List.cons_append], hq, hr, hlt, ?_⟩
        intro m' hm' hq'
        rcases List.mem_cons.mp hm' with hm' | hm'
        · subst hm'
          omega
        · exact hpre m' hm' hq'
    · rw [if_neg h1] at h
      by_cases h2 : x.length < (truncate25k m0).length
      · rw [if_pos h2] at h
        rcases ih (truncate25k m0) r h with hl | ⟨pre, m, post, hsplit, hq, hr, hlt, hpre⟩
        · subst hl
          exact Or.inr ⟨[], m0, rest, rfl, by omega, rfl, h2, by simp⟩
        · refine Or.inr ⟨m0 :: pre, m, post, by rw [hsplit, List.cons_append], hq, hr,
            by omega, ?_⟩
          intro m' hm' hq'
          rcases List.mem_cons.mp hm' with hm' | hm'
          · subst hm'
            exact hlt
          · exact hpre m' hm' hq'
      · rw [if_neg h2] at h
        rcases ih x r h with hl | ⟨pre, m, post, hsplit, hq, hr, hlt, hpre⟩
        · exact Or.inl hl
        · refine Or.inr ⟨m0 :: pre, m, post, by rw [hsplit, List.cons_append], hq, hr, hlt, ?_⟩
          intro m' hm' hq'
          rcases List.mem_cons.mp hm' with hm' | hm'
          · subst hm'
            omega
          · exact hpre m' hm' hq'

theorem phase12_first_max :
    ∀ (l : List String) (r : String),
      selectBestAux l none 0 = some r →
      ∃ pre m post, l = pre ++ m :: post ∧ 200 ≤ m.length ∧ r = truncate25k m
        ∧ ∀ m' ∈ pre, 200 ≤ m'.length → (truncate25k m').length < r.length := by
  intro l
  induction l with
  | nil =>
    intro r h
    cases h
  | cons m0 rest ih =>
    intro r h
    simp only [selectBestAux] at h
    by_cases h1 : m0.length < 200
    · rw [if_pos h1] at h
      obtain ⟨pre, m, post, hsplit, hq, hr, hpre⟩ := ih r h
      refine ⟨m0 :: pre, m, post, by rw [hsplit, List.cons_append], hq, hr, ?_⟩
      intro m' hm' hq'
      rcases List.mem_cons.mp hm' with hm' | hm'
      · subst hm'
        omega
      · exact hpre m' hm' hq'
    · rw [if_neg h1] at h
      have hpos : 0 < (truncate25k m0).length := by
        rw [truncate25k_length]
        omega
      rw [if_pos hpos] at h
      rcases selectBestAux_from_state rest (truncate25k m0) r h with
        hl | ⟨pre, m, post, hsplit, hq, hr, hlt, hpre⟩
      · subst hl
        exact ⟨[], m0, rest, rfl, by omega, rfl, by simp⟩
      · refine ⟨m0 :: pre, m, post, by rw [hsplit, List.cons_append], hq, hr, ?_⟩
        intro m' hm' hq'
        rcases List.mem_cons.mp hm' with hm' | hm'
        · subst hm'
          exact hlt
        · exact hpre m' hm' hq'

theorem fallbackLoop_eq_foldl (cnt : String → Nat) :
    ∀ (blocks cur : List String) (maxC : Nat) (best : String),
      fallbackLoop cnt blocks cur maxC best =
        (termRunsAux cnt blocks cur).foldl
          (fun acc r =>
            if acc.1 < cnt (joinBlocks r) ∧ 500 < (joinBlocks r).length
            then (cnt (joinBlocks r), joinBlocks r) else acc)
          (maxC, best) := by
  intro blocks
  induction blocks with
  | nil =>
    intro cur maxC best
    rfl
  | cons p rest ih =>
    intro cur maxC best
    simp only [fallbackLoop, termRunsAux]
    by_cases h1 : 0 < cnt p
    · rw [if_pos h1, if_pos h1]
      exact ih (cur ++ [p]) maxC best
    · rw [if_neg h1, if_neg h1]
      by_cases h2 : cur.isEmpty = true
      · rw [if_pos h2, if_pos h2]
        exact ih cur maxC best
      · rw [if_neg h2, if_neg h2]
        rw [List.foldl_cons]
        by_cases h3 : maxC < cnt (joinBlocks cur) ∧ 500 < (joinBlocks cur).length
        · rw [if_pos h3, if_pos h3]
          exact ih [] (cnt (joinBlocks cur)) (joinBlocks cur)
        · rw [if_neg h3, if_neg h3]
          exact ih [] maxC best

theorem fallbackLoop_eq_pickRun (cnt : String → Nat) (blocks : List String) :
    fallbackLoop cnt blocks [] 0 "" = pickRun cnt (terminatedRuns cnt blocks) :=
  fallbackLoop_eq_foldl cnt blocks [] 0 ""

theorem pickRun_foldl_bound (cnt : String → Nat) :
    ∀ (runs : List (List String)) (a : Nat × String),
      a.1 ≤ (runs.foldl
          (fun acc r =>
            if acc.1 < cnt (joinBlocks r) ∧ 500 < (joinBlocks r).length
            then (cnt (joinBlocks r), joinBlocks r) else acc) a).1
      ∧ ∀ r ∈ runs, 500 < (joinBlocks r).length →
          cnt (joinBlocks r) ≤ (runs.foldl
            (fun acc r =>
              if acc.1 < cnt (joinBlocks r) ∧ 500 < (joinBlocks r).length
              then (cnt (joinBlocks r), joinBlocks r) else acc) a).1 := by
  intro runs
  induction runs with
  | nil =>
    intro a
    exact ⟨le_rfl, by simp⟩
  | cons r rest ih =>
    intro a
    rw [List.foldl_cons]
    by_cases hc : a.1 < cnt (joinBlocks r) ∧ 500 < (joinBlocks r).length
    · rw [if_pos hc]
      have hstep := (ih (cnt (joinBlocks r), joinBlocks r)).1
      refine ⟨le_trans (le_of_lt hc.1) hstep, ?_⟩
      intro r' hr' h500
      rcases List.mem_cons.mp hr' with hr' | hr'
      · subst hr'
        exact hstep
      · exact (ih (cnt (joinBlocks r), joinBlocks r)).2 r' hr' h500
    · rw [if_neg hc]
      refine ⟨(ih a).1, ?_⟩
      intro r' hr' h500
      rcases List.mem_cons.mp hr' with hr' | hr'
      · subst hr'
        have : cnt (joinBlocks r') ≤ a.1 := by
          by_contra hgt
          exact hc ⟨by omega, h500⟩
        exact le_trans this (ih a).1
      · exact (ih a).2 r' hr' h500

theorem pickRun_foldl_provenance (cnt : String → Nat) :
    ∀ (runs : List (List String)) (a : Nat × String),
      (runs.foldl
          (fun acc r =>
            if acc.1 < cnt (joinBlocks r) ∧ 500 < (joinBlocks r).length
            then (cnt (joinBlocks r), joinBlocks r) else acc) a) = a
      ∨ ∃ r ∈ runs, (runs.foldl
            (fun acc r =>
              if acc.1 < cnt (joinBlocks r) ∧ 500 < (joinBlocks r).length
              then (cnt (joinBlocks r), joinBlocks r) else acc) a).2 = joinBlocks r
          ∧ (runs.foldl
              (fun acc r =>
                if acc.1 < cnt (joinBlocks r) ∧ 500 < (joinBlocks r).length
                then (cnt (joinBlocks r), joinBlocks r) else acc) a).1
              = cnt (joinBlocks r)
          ∧ 500 < (joinBlocks r).length := by
  intro runs
  induction runs with
  | nil =>
    intro a
    exact Or.inl rfl
  | cons r rest ih =>
    intro a
    rw [List.foldl_cons]
    by_cases hc : a.1 < cnt (joinBlocks r) ∧ 500 < (joinBlocks r).length
    · rw [if_pos hc]
      rcases ih (cnt (joinBlocks r), joinBlocks r) with heq | ⟨r', hr', h2', h1', h5'⟩
      · right
        exact ⟨r, List.mem_cons_self _ _, by rw [heq], by rw [heq], hc.2⟩
      · right
        exact ⟨r', List.mem_cons_of_mem _ hr', h2', h1', h5'⟩
    · rw [if_neg hc]
      rcases ih a with heq | ⟨r', hr', h2', h1', h5'⟩
      · exact Or.inl heq
      · right
        exact ⟨r', List.mem_cons_of_mem _ hr', h2', h1', h5'⟩

theorem pickRun_foldl_id (cnt : String → Nat) :
    ∀ (runs : List (List String)) (a : Nat × String),
      (∀ r ∈ runs, ¬ 500 < (joinBlocks r).length) →
      (runs.foldl
          (fun acc r =>
            if acc.1 < cnt (joinBlocks r) ∧ 500 < (joinBlocks r).length
            then (cnt (joinBlocks r), joinBlocks r) else acc) a) = a := by
  intro runs
  induction runs with
  | nil =>
    intro a _
    rfl
  | cons r rest ih =>
    intro a hall
    rw [List.foldl_cons,
      if_neg (fun hc => hall r (List.mem_cons_self _ _) hc.2)]
    exact ih a (fun r' hr' => hall r' (List.mem_cons_of_mem _ hr'))

theorem fallbackResult_some (cnt : String → Nat) (full_text : String) (s : String) :
    fallbackResult cnt full_text = some s →
    ∃ r ∈ terminatedRuns cnt (pySplitBlocks full_text),
      s = truncate25k (joinBlocks r) ∧ 500 < (joinBlocks r).length ∧
      ∀ r' ∈ terminatedRuns cnt (pySplitBlocks full_text),
        500 < (joinBlocks r').length →
          cnt (joinBlocks r') ≤ cnt (joinBlocks r) := by
  intro hs
  rw [fallbackResult, fallbackLoop_eq_pickRun] at hs
  by_cases hcond : (pickRun cnt (terminatedRuns cnt (pySplitBlocks full_text))).2 ≠ ""
      ∧ 500 < (pickRun cnt (terminatedRuns cnt (pySplitBlocks full_text))).2.length
  · rw [if_pos hcond] at hs
    have hseq : s = truncate25k
        (pickRun cnt (terminatedRuns cnt (pySplitBlocks full_text))).2 :=
      (Option.some.inj hs).symm
    rcases pickRun_foldl_provenance cnt (terminatedRuns cnt (pySplitBlocks full_text))
        (0, "") with heq | ⟨r, hr, h2, h1, h5⟩
    · exfalso
      apply hcond.1
      rw [show pickRun cnt (terminatedRuns cnt (pySplitBlocks full_text)) = (0, "")
        from heq]
    · have h2' : (pickRun cnt (terminatedRuns cnt (pySplitBlocks full_text))).2
          = joinBlocks r := h2
      have h1' : (pickRun cnt (terminatedRuns cnt (pySplitBlocks full_text))).1
          = cnt (joinBlocks r) := h1
      refine ⟨r, hr, ?_, h5, ?_⟩
      · rw [hseq, h2']
      · intro r' hr' h500
        have hb := (pickRun_foldl_bound cnt (terminatedRuns cnt (pySplitBlocks full_text))
          (0, "")).2 r' hr' h500
        rw [← h1']
        exact hb
  · rw [if_neg hcond] at hs
    cases hs

theorem fallbackResult_none (cnt : String → Nat) (full_text : String)
    (h : ∀ r ∈ terminatedRuns cnt (pySplitBlocks full_text),
      ¬ 500 < (joinBlocks r).length) :
    fallbackResult cnt full_text = none := by
  rw [fallbackResult, fallbackLoop_eq_pickRun]
  have hid : pickRun cnt (terminatedRuns cnt (pySplitBlocks full_text)) = (0, "") :=
    pickRun_foldl_id cnt _ _ h
  rw [hid]
  simp

/-- Claim C2: whenever any explicit-header candidate (pattern strategies
1/2) of length at least the 200-character minimum exists, the extractor
returns the phase-1/2 selection — the longest qualifying candidate after
truncation, with ties resolved in favour of the earlier pattern and match
— and the keyword-density fallback is never consulted, whatever it would
produce (the result does not depend on `cnt` or on the text); when no
pattern candidate qualifies, the extractor falls through to the density
fallback, realising the strategy order 1 > 2 > 3. -/
theorem extractor_header_priority (ms : List (List String)) (cnt : String → Nat)
    (full_text : String) :
    ((∃ m ∈ ms.flatten, 200 ≤ m.length) →
      ∃ b, phase12 ms = some b
        ∧ download_pdf_and_extract_method ms cnt full_text = some b
        ∧ (∀ m ∈ ms.flatten, 200 ≤ m.length → (truncate25k m).length ≤ b.length)
        ∧ ∃ pre m post, ms.flatten = pre ++ m :: post ∧ 200 ≤ m.length
            ∧ b = truncate25k m
            ∧ ∀ m' ∈ pre, 200 ≤ m'.length → (truncate25k m').length < b.length)
    ∧ ((∀ m ∈ ms.flatten, m.length < 200) →
        download_pdf_and_extract_method ms cnt full_text
          = fallbackResult cnt full_text) := by
  constructor
  · intro hex
    obtain ⟨b, hb⟩ : ∃ b, phase12 ms = some b := by
      cases hp : phase12 ms with
      | none =>
        exfalso
        obtain ⟨m, hm, hq⟩ := hex
        have := (selectBestAux_none_iff ms.flatten).mp hp m hm
        omega
      | some b => exact ⟨b, rfl⟩
    refine ⟨b, hb, ?_, ?_, ?_⟩
    · rw [download_pdf_and_extract_method, hb]
    · intro m hm hq
      exact selectBestAux_dom ms.flatten none 0 b (fun x hx => by cases hx) hb m hm hq
    · exact phase12_first_max ms.flatten b hb
  · intro hall
    rw [download_pdf_and_extract_method,
      show phase12 ms = none from (selectBestAux_none_iff ms.flatten).mpr hall]

set_option maxRecDepth 40000 in
/-- Witness for C2 at one 250-character pattern candidate. -/
theorem extractor_header_priority_witness :
    ∃ b, phase12 msEx = some b
      ∧ download_pdf_and_extract_method msEx cnt0 "" = some b
      ∧ (∀ m ∈ msEx.flatten, 200 ≤ m.length → (truncate25k m).length ≤ b.length)
      ∧ ∃ pre m post, msEx.flatten = pre ++ m :: post ∧ 200 ≤ m.length
          ∧ b = truncate25k m
          ∧ ∀ m' ∈ pre, 200 ≤ m'.length → (truncate25k m').length < b.length :=
  (extractor_header_priority msEx cnt0 "").1 (by decide)

/-- Claim C4 (amended): the keyword-density fallback splits the text into
blank-line-separated blocks and groups consecutive keyword-positive
blocks into runs, but it only scores a run once a later keyword-free
block terminates it: among the *terminated* runs it selects the first one
attaining the highest keyword count, provided its joined length exceeds
500 — a run that extends to the end of the text is never evaluated. -/
theorem fallback_terminated_runs (cnt : String → Nat) (full_text : String) :
    (fallbackLoop cnt (pySplitBlocks full_text) [] 0 ""
        = pickRun cnt (terminatedRuns cnt (pySplitBlocks full_text)))
    ∧ ∀ s, fallbackResult cnt full_text = some s →
        ∃ r ∈ terminatedRuns cnt (pySplitBlocks full_text),
          s = truncate25k (joinBlocks r) ∧ 500 < (joinBlocks r).length ∧
          ∀ r' ∈ terminatedRuns cnt (pySplitBlocks full_text),
            500 < (joinBlocks r').length →
              cnt (joinBlocks r') ≤ cnt (joinBlocks r) :=
  ⟨fallbackLoop_eq_pickRun cnt (pySplitBlocks full_text),
    fallbackResult_some cnt full_text⟩

set_option maxRecDepth 40000 in
/-- Witness for C4: a 599-character keyword run terminated by a
keyword-free block is selected. -/
theorem fallback_terminated_runs_witness :
    ∃ r ∈ terminatedRuns cntEx (pySplitBlocks exText2),
      bigBlock = truncate25k (joinBlocks r) ∧ 500 < (joinBlocks r).length ∧
      ∀ r' ∈ terminatedRuns cntEx (pySplitBlocks exText2),
        500 < (joinBlocks r').length →
          cntEx (joinBlocks r') ≤ cntEx (joinBlocks r) :=
  (fallback_terminated_runs cntEx exText2).2 bigBlock (by decide)

set_option maxRecDepth 40000 in
/-- Counterexample for C4 as stated: in `exText` the only keyword run
(599 characters, one keyword match) extends to the end of the text; it
qualifies in count and length, yet the extractor returns nothing, because
the loop never evaluates a run that is not followed by a keyword-free
block. -/
theorem fallback_end_run_cex :
    download_pdf_and_extract_method [[], [], [], []] cntEx exText = none
    ∧ terminatedRuns cntEx (pySplitBlocks exText) = []
    ∧ allRuns cntEx (pySplitBlocks exText) = [[bigBlock]]
    ∧ 0 < cntEx (joinBlocks [bigBlock])
    ∧ 500 < (joinBlocks [bigBlock]).length := by decide

/-- Claim C5: any section returned by the extractor has length within
[200, 25000]: pattern candidates shorter than 200 are discarded, any
candidate longer than 25000 is truncated to exactly 25000 characters, and
when no candidate qualifies (all pattern matches shorter than 200 and no
terminated density run longer than 500) the extractor returns `none`. -/
theorem extractor_length_window (ms : List (List String)) (cnt : String → Nat)
    (full_text : String) :
    (∀ s, download_pdf_and_extract_method ms cnt full_text = some s →
        200 ≤ s.length ∧ s.length ≤ 25000)
    ∧ (∀ t : String, 25000 < t.length → (truncate25k t).length = 25000)
    ∧ ((∀ m ∈ ms.flatten, m.length < 200) →
       (∀ r ∈ terminatedRuns cnt (pySplitBlocks full_text),
          ¬ 500 < (joinBlocks r).length) →
       download_pdf_and_extract_method ms cnt full_text = none) := by
  refine ⟨?_, ?_, ?_⟩
  · intro s hs
    rw [download_pdf_and_extract_method] at hs
    cases hp : phase12 ms with
    | some b =>
      rw [hp] at hs
      replace hs : some b = some s := hs
      obtain rfl := Option.some.inj hs
      obtain ⟨pre, m, post, hsplit, hq, hr, hpre⟩ := phase12_first_max ms.flatten b hp
      rw [hr, truncate25k_length]
      omega
    | none =>
      rw [hp] at hs
      replace hs : fallbackResult cnt full_text = some s := hs
      obtain ⟨r, hr, hs', h500, _⟩ := fallbackResult_some cnt full_text s hs
      rw [hs', truncate25k_length]
      omega
  · intro t ht
    rw [truncate25k_length]
    omega
  · intro hms hruns
    rw [download_pdf_and_extract_method,
      show phase12 ms = none from (selectBestAux_none_iff ms.flatten).mpr hms]
    exact fallbackResult_none cnt full_text hruns

set_option maxRecDepth 40000 in
/-- Witness for C5 at a 300-character pattern candidate. -/
theorem extractor_length_window_witness :
    200 ≤ cand300.length ∧ cand300.length ≤ 25000 :=
  (extractor_length_window msEx2 cnt0 "").1 cand300 (by decide)
